import Mathlib

/-!
A shallow embedding of `reencode.py` (FLAC Batch Re-encode, v1.3), covering the
job type `ReencodeJob`, the job pool `ReencodeJobList`, and the batch driver
`reencode_files`.

Modelling conventions:
* An external encoder process is modelled by two oracles fixed for a whole run:
  `dur i` (how many sleep ticks after its start the process with job id `i`
  takes to terminate) and `okf i` (whether its exit code is zero).  A job
  stores its absolute termination time `endTime`; `proc.poll()` reports
  termination exactly when the current clock has reached `endTime`.
  `REENCODE_TIMEOUT` is `None` in the source, so `ReencodeJob.poll` never
  raises the timeout error and the clock comparison is the whole of `poll`.
* The filesystem is a list of paths; `os.path.exists` is membership and
  `os.remove` errors on a missing path, exactly like the real calls.
* Python-level failures are explicit: `Except PyErr`.  The script declares
  itself a Python 3 program (shebang `#!python3`, module docstring), and under
  Python 3 a call to a name that is bound neither in the local scope, nor at
  module level, nor as a builtin raises `NameError`.  The module-level names
  of `reencode.py` are listed verbatim in `moduleGlobals` below; the failure
  branch of `ReencodeJobList.finish` calls `raw_input` (line 269), and the
  abort branch calls `logger.critical` (line 278) — neither name is bound
  anywhere, which the embedding reflects through `resolvesName`.
* CPython's `list` iterator advances by index over the live list.  In
  `ReencodeJobList.poll` the body `self.finish(job)` can remove the element
  at the iterator's current index, so the element that slides into that slot
  is never visited in that sweep.  `ReencodeJobList.poll` is embedded with
  exactly that semantics (`pollGo` below).
-/

/-- Python exceptions that the embedded fragments can raise. -/
inductive PyErr where
  | nameError (missing : String)
  | valueError
  | runtimeError
  | fileNotFound
  | eofError
  | systemExit (code : Int)
deriving DecidableEq, Repr

deriving instance DecidableEq for Except

/-- The operator's recovery decision (retry / skip / abort). -/
inductive Choice where
  | retry
  | skip
  | abort
deriving DecidableEq, Repr

/-- One `ReencodeJob`: an external `flac` invocation for one input file.
`endTime` is the clock tick at which the spawned process terminates, `exitOk`
says whether its exit code is zero, and `waited` records that `proc.wait()`
(or `communicate`) has been performed on it. -/
structure Job where
  id : Nat
  file : String
  endTime : Nat
  exitOk : Bool
  waited : Bool
deriving DecidableEq, Repr

/-- The Python 3 builtins relevant to `reencode.py`.  `input` is a builtin;
`raw_input` (Python 2 only) is not. -/
def py3Builtins : List String :=
  ["print", "input", "len", "str", "int", "float", "max", "range", "open",
   "list", "dict", "tuple", "bool", "type", "repr", "abs", "min", "sum",
   "sorted", "enumerate", "zip", "map", "filter", "isinstance", "getattr",
   "setattr", "hasattr", "id", "hash", "iter", "next", "format", "ord",
   "chr", "bytes", "bytearray", "object", "Exception", "ValueError",
   "RuntimeError", "KeyboardInterrupt", "NameError", "globals", "locals"]

/-- Every name bound at module scope in `reencode.py`: the imports (line 28),
the module-level defs and constants, and the names declared `global` in
`main` (line 68).  There is no module-level binding of `raw_input` or
`logger`. -/
def moduleGlobals : List String :=
  ["sys", "codecs", "getopt", "logging", "os", "fnmatch", "subprocess",
   "time", "multiprocessing", "init_logging", "FLAC_EXECUTABLE",
   "REENCODE_TIMEOUT", "SILENT_FLAC", "usage", "main", "get_file_list",
   "ReencodeJob", "ReencodeJobList", "reencode_files", "root_folder",
   "file_mask", "verify_output", "flac_path", "n_parallel"]

/-- Python 3 name resolution as seen from inside a method of `reencode.py`
(no enclosing function scope binds the names we care about): a global name
resolves iff it is a module-level name or a builtin. -/
def resolvesName (n : String) : Bool :=
  moduleGlobals.contains n || py3Builtins.contains n

/-- `str.lower` on the small ASCII strings the prompt deals with. -/
def pyLower (s : String) : String :=
  String.mk (s.data.map Char.toLower)

/-- The validation step of the recovery prompt, `reencode.py` line 270:
`len(user_input) != 1 or user_input not in ('r', 's', 'a')` — an input is
accepted iff (after `.lower()`) it is exactly one of the characters
`r`, `s`, `a`. -/
def promptAccepts (lowered : String) : Bool :=
  lowered.length == 1 &&
    (lowered == "r" || lowered == "s" || lowered == "a")

/-- The body of the `while not has_input` prompt loop (lines 266-273),
assuming the read call itself works: consume operator lines until one is
accepted, re-prompting on every rejected line; raise `EOFError` if the
operator input is exhausted (as `input` would at end of stream). -/
def promptLoop : List String → Except PyErr Choice
  | [] => .error .eofError
  | s :: rest =>
    let t := pyLower s
    if promptAccepts t then
      .ok (if t == "a" then .abort else if t == "r" then .retry else .skip)
    else
      promptLoop rest

/-- The prompt as actually executed under Python 3: the loop body first calls
`raw_input(...)` (line 269), and `raw_input` resolves neither as a module
global nor as a Python 3 builtin, so the call raises
`NameError: name 'raw_input' is not defined` before any prompt happens. -/
def promptChoice (stdin : List String) : Except PyErr Choice :=
  if resolvesName "raw_input" then promptLoop stdin
  else .error (.nameError "raw_input")

/-- The fixed temporary-file suffix used by the `flac` encoder,
`".tmp,fl-ac+en'c"` (written with `\x27` for the apostrophe). -/
def tmpSuffix : String := ".tmp,fl-ac+en\x27c"

/-- `os.path.exists` over the list-of-paths filesystem. -/
def osPathExists (p : String) (fs : List String) : Bool :=
  fs.contains p

/-- `os.remove`: deletes the path, raising `FileNotFoundError` if absent. -/
def osRemove (p : String) (fs : List String) : Except PyErr (List String) :=
  if fs.contains p then .ok (fs.erase p) else .error .fileNotFound

namespace ReencodeJob

/-- `ReencodeJob._remove_tmp` (lines 194-197): delete
`self.file + ".tmp,fl-ac+en'c"` if it exists. -/
def remove_tmp (file : String) (fs : List String) : Except PyErr (List String) :=
  let tmp := file ++ tmpSuffix
  if osPathExists tmp fs then osRemove tmp fs else .ok fs

end ReencodeJob

namespace ReencodeJobList

/-- `ReencodeJobList.start` (lines 234-238): construct a job for `file`,
append it to the owned list, and start it (which fixes its termination
time from the duration oracle and its exit status from the outcome
oracle). -/
def start (dur : Nat → Nat) (okf : Nat → Bool) (clock : Nat) (nextId : Nat)
    (file : String) (jobs : List Job) : List Job :=
  jobs ++ [{ id := nextId, file := file, endTime := clock + dur nextId,
             exitOk := okf nextId, waited := false }]

/-- The abort branch of `ReencodeJobList.finish` (lines 276-279): `self.wait()`
on the remaining owned jobs (waiting each process and removing its temporary
file), then `logger.critical("Exiting.")` — but `logger` is not bound at any
enclosing scope, so under Python 3 that line raises `NameError` and the
following `sys.exit(-6)` is never executed. -/
def abortErr : PyErr :=
  if resolvesName "logger" then .systemExit (-6) else .nameError "logger"

/-- `ReencodeJobList.finish` (lines 240-287).  Steps, in source order:
membership sanity check (raise `ValueError`), the non-blocking early return
when `wait` is false and the process has not terminated, removal from the
owned list with the strict-decrease sanity check (raise `RuntimeError`),
outcome classification via `ReencodeJob.finish` (exit code zero?), and on
failure the recovery prompt (which under Python 3 raises `NameError`, see
`promptChoice`); the retry branch re-appends and restarts the same job, the
abort branch drains and dies (`abortErr`). -/
def finish (dur : Nat → Nat) (clock : Nat) (stdin : List String)
    (jobs : List Job) (job : Job) (wait : Bool) :
    Except PyErr (Bool × List Job) :=
  if jobs.any (fun j => j.id == job.id) then
    if ¬wait ∧ clock < job.endTime then .ok (false, jobs)
    else
      let removed := jobs.eraseP (fun j => j.id == job.id)
      if jobs.length ≤ removed.length then .error .runtimeError
      else if job.exitOk then .ok (true, removed)
      else
        match promptChoice stdin with
        | .error e => .error e
        | .ok .abort => .error abortErr
        | .ok .retry =>
          .ok (true, removed ++
            [{ job with endTime := clock + dur job.id, waited := false }])
        | .ok .skip => .ok (true, removed)
  else .error .valueError

/-- The body of `ReencodeJobList.poll` (lines 298-302) as CPython executes
it: `for job in self.jobs: found |= self.finish(job)` iterates by index over
the live list, so when `finish` reaps the element at the current index the
element that slides into that index is skipped.  The first list is the live
`self.jobs`; the second is the tail of elements the iterator has yet to
visit, starting from the whole list. -/
def pollGo (dur : Nat → Nat) (clock : Nat) (stdin : List String) :
    List Job → List Job → Bool → Except PyErr (Bool × List Job)
  | jobs, [], found => .ok (found, jobs)
  | jobs, j :: rest, found =>
    match finish dur clock stdin jobs j false with
    | .error e => .error e
    | .ok (false, jobs') => pollGo dur clock stdin jobs' rest found
    | .ok (true, jobs') =>
      match rest with
      | [] => .ok (true, jobs')
      | _ :: rest2 => pollGo dur clock stdin jobs' rest2 true

/-- `ReencodeJobList.poll` (lines 298-302). -/
def poll (dur : Nat → Nat) (clock : Nat) (stdin : List String)
    (jobs : List Job) : Except PyErr (Bool × List Job) :=
  pollGo dur clock stdin jobs jobs false

/-- The specification's reading of `poll_all`/`ReencodeJobList.poll`,
written from the spec's words, for comparison with `poll` above: sweep
every job owned at the start of the call, in order, calling non-blocking
`finish` on each one against the evolving pool (no job skipped). -/
def pollAllSpecGo (dur : Nat → Nat) (clock : Nat) (stdin : List String) :
    List Job → List Job → Bool → Except PyErr (Bool × List Job)
  | pool, [], found => .ok (found, pool)
  | pool, j :: rest, found =>
    match finish dur clock stdin pool j false with
    | .error e => .error e
    | .ok (b, pool') => pollAllSpecGo dur clock stdin pool' rest (found || b)

/-- The sweep described by the spec, started on the full owned list (see
`pollAllSpecGo`). -/
def pollAllSpec (dur : Nat → Nat) (clock : Nat) (stdin : List String)
    (jobs : List Job) : Except PyErr (Bool × List Job) :=
  pollAllSpecGo dur clock stdin jobs jobs false

/-- One step of `ReencodeJobList.wait` (lines 289-296): `job.wait()` waits
the process (marking it waited) and then runs `_remove_tmp` on the
filesystem.  The guarded `_remove_tmp` never raises, but the embedding keeps
the `Except` plumbing of its parts. -/
def waitGo : List Job → List String → Except PyErr (List Job × List String)
  | [], fs => .ok ([], fs)
  | j :: rest, fs =>
    match ReencodeJob.remove_tmp j.file fs with
    | .error e => .error e
    | .ok fs' =>
      match waitGo rest fs' with
      | .error e => .error e
      | .ok (rest', fs'') => .ok ({ j with waited := true } :: rest', fs'')

/-- `ReencodeJobList.wait` (lines 289-296): wait on every owned job in
order, cleaning up each one's temporary file.  The owned list itself is
never mutated: the same jobs, in the same order, are owned afterwards. -/
def wait (jobs : List Job) (fs : List String) :
    Except PyErr (List Job × List String) :=
  waitGo jobs fs

end ReencodeJobList

/-- `str(i).rjust(total_len, fill)` (line 339 uses `' '` as fill). -/
def pyStrRjust (s : String) (w : Nat) (fill : Char) : String :=
  if w ≤ s.length then s else String.mk (List.replicate (w - s.length) fill) ++ s

/-- The percentage printed by the progress line: `float(i) / total * 100`
rendered with `%d`, i.e. truncated towards zero.  Modelled as exact natural
division; both the embedded line and the spec-side line below use this same
value, so no theorem depends on the float rounding of the quotient. -/
def pyPct (i total : Nat) : Nat := i * 100 / total

/-- The progress line printed for the `i`-th file (1-based) of `total`
(lines 338-342): `"%s/%d (%d%%): Re-encoding '%s'..."` with the index
right-justified to the width of `total` using **spaces**
(`str(i).rjust(total_len, ' ')`) and a trailing `"..."`. -/
def progressLine (i total : Nat) (relPath : String) : String :=
  pyStrRjust (toString i) (toString total).length ' ' ++ "/" ++ toString total ++
    " (" ++ toString (pyPct i total) ++ "%): Re-encoding \x27" ++ relPath ++ "\x27..."

/-- The progress line as the specification describes it, for comparison
with `progressLine`: `<index>/<total> (<percent>%): Re-encoding '<relative
path>'` with the index zero-padded to the width of `total`. -/
def claimedProgressLine (i total : Nat) (relPath : String) : String :=
  pyStrRjust (toString i) (toString total).length '0' ++ "/" ++ toString total ++
    " (" ++ toString (pyPct i total) ++ "%): Re-encoding \x27" ++ relPath ++ "\x27"

/-- Observable counters of a batch run: how many jobs were started, how many
were reaped by polling sweeps, the largest owned-pool size ever reached, the
pool size at the moment of each submission, the number of polling sweeps, and
the progress lines printed (in order). -/
structure Instr where
  started : Nat
  reaped : Nat
  maxSize : Nat
  submitSizes : List Nat
  sweeps : Nat
  lines : List String
deriving DecidableEq, Repr

/-- The driver's state: owned pool, clock (advanced by `time.sleep(1)`),
the next fresh job id, and the observables. -/
structure RState where
  pool : List Job
  clock : Nat
  nextId : Nat
  instr : Instr
deriving DecidableEq, Repr

/-- How a (fuelled) run ends: normally, out of fuel (the real loop would
still be sleeping and sweeping), or by an uncaught Python exception. -/
inductive RunRes where
  | finished
  | fuelOut
  | crashed (e : PyErr)
deriving DecidableEq, Repr

/-- The admission wait of `reencode_files` (lines 346-350):
`while len(jobs) >= n_parallel: if not jobs.poll(): time.sleep(1)`.
Each iteration costs one unit of fuel; a sweep that reaps nothing is
followed by a sleep tick that advances the clock. -/
def admitLoop (c : Nat) (dur : Nat → Nat) (stdin : List String) :
    Nat → RState → RState × RunRes
  | 0, s => (s, .fuelOut)
  | fuel + 1, s =>
    if c ≤ s.pool.length then
      match ReencodeJobList.poll dur s.clock stdin s.pool with
      | .error e => (s, .crashed e)
      | .ok (found, pool') =>
        let instr' := { s.instr with
          sweeps := s.instr.sweeps + 1,
          reaped := s.instr.reaped + (s.pool.length - pool'.length),
          maxSize := max s.instr.maxSize pool'.length }
        let s' : RState := { s with pool := pool', instr := instr' }
        if found then admitLoop c dur stdin fuel s'
        else admitLoop c dur stdin fuel { s' with clock := s'.clock + 1 }
    else (s, .finished)

/-- The per-file loop of `reencode_files` (lines 337-350) followed by the
final `jobs.wait()` (line 359).  For each file, in order: print the progress
line, `jobs.start(file)`, then the admission wait.  After the last file the
driver waits every still-owned job; the owned list itself is not emptied by
that wait (`ReencodeJobList.wait` removes nothing).  The driver-level model
leaves the filesystem component out: no claim about the driver mentions it,
and `ReencodeJobList.wait` carries it where it matters. -/
def runFiles (c : Nat) (dur : Nat → Nat) (okf : Nat → Bool)
    (rel : String → String) (total : Nat) (stdin : List String) (fuel : Nat) :
    List String → RState → RState × RunRes
  | [], s =>
    ({ s with pool := s.pool.map (fun j => { j with waited := true }) }, .finished)
  | f :: rest, s =>
    let i := s.instr.started + 1
    let line := progressLine i total (rel f)
    let pool1 := ReencodeJobList.start dur okf s.clock s.nextId f s.pool
    let instr1 := { s.instr with
      started := i,
      submitSizes := s.instr.submitSizes ++ [s.pool.length],
      maxSize := max s.instr.maxSize pool1.length,
      lines := s.instr.lines ++ [line] }
    let s1 : RState := { s with pool := pool1, nextId := s.nextId + 1, instr := instr1 }
    match admitLoop c dur stdin fuel s1 with
    | (s2, .finished) => runFiles c dur okf rel total stdin fuel rest s2
    | (s2, r) => (s2, r)

/-- The initial driver state: no jobs, clock zero, no observables. -/
def initRState : RState :=
  { pool := [], clock := 0, nextId := 0,
    instr := { started := 0, reaped := 0, maxSize := 0, submitSizes := [],
               sweeps := 0, lines := [] } }

/-- `reencode_files(files)` (lines 318-359) with ceiling `c` and the process
oracles, run from the empty initial state. -/
def reencode_files (c : Nat) (dur : Nat → Nat) (okf : Nat → Bool)
    (rel : String → String) (stdin : List String) (fuel : Nat)
    (files : List String) : RState × RunRes :=
  runFiles c dur okf rel files.length stdin fuel files initRState

/-- The progress lines the driver prints for a list of files when `base`
files have been submitted before them: one `progressLine` per file, with
1-based indices continuing from `base`. -/
def expectedLines (total : Nat) (rel : String → String) : Nat → List String → List String
  | _, [] => []
  | base, f :: fs =>
    progressLine (base + 1) total (rel f) :: expectedLines total rel (base + 1) fs

/-- Fixture: every process terminates instantly (duration oracle 0). -/
def durZero : Nat → Nat := fun _ => 0

/-- Fixture: every process exits with code zero. -/
def okAll : Nat → Bool := fun _ => true

/-- Fixture: the identity relative-path collaborator. -/
def relId : String → String := fun s => s

/-- Fixture: a terminated, successful job with id 0. -/
def jobA : Job :=
  { id := 0, file := "a.flac", endTime := 0, exitOk := true, waited := false }

/-- Fixture: a terminated, successful job with id 1. -/
def jobB : Job :=
  { id := 1, file := "b.flac", endTime := 0, exitOk := true, waited := false }

/-- Fixture: a terminated job with id 2 whose encoder exited nonzero. -/
def jobBad : Job :=
  { id := 2, file := "bad.flac", endTime := 0, exitOk := false, waited := false }

/-! ## Basic facts about the embedded operations -/

/-- `raw_input` is not a Python 3 name: the recovery prompt raises
`NameError` no matter what the operator would have typed. -/
theorem promptChoice_raises (stdin : List String) :
    promptChoice stdin = .error (.nameError "raw_input") := rfl

/-- `logger` is not bound in any scope enclosing `ReencodeJobList.finish`:
the abort branch raises `NameError` instead of reaching `sys.exit(-6)`. -/
theorem abortErr_eq : ReencodeJobList.abortErr = .nameError "logger" := rfl

/-- Membership by id gives a successful `any` test. -/
theorem any_id_of_mem {jobs : List Job} {j : Job} (h : j ∈ jobs) :
    jobs.any (fun x => x.id == j.id) = true :=
  List.any_eq_true.mpr ⟨j, h, by simp⟩

/-- Exhaustive description of the non-error results of
`ReencodeJobList.finish`: either nothing happened (non-blocking poll of a
still-running job), or the job was reaped — removed from the owned list,
strictly shrinking it — and its exit code was zero.  The retry re-append is
unreachable because the recovery prompt always raises. -/
theorem finish_ok_cases {dur : Nat → Nat} {clock : Nat} {stdin : List String}
    {jobs : List Job} {job : Job} {w : Bool} {b : Bool} {jobs' : List Job}
    (h : ReencodeJobList.finish dur clock stdin jobs job w = .ok (b, jobs')) :
    (b = false ∧ jobs' = jobs) ∨
      (b = true ∧ jobs' = jobs.eraseP (fun j => j.id == job.id) ∧
        jobs'.length < jobs.length ∧ job.exitOk = true) := by
  simp only [ReencodeJobList.finish, promptChoice_raises] at h
  split at h
  · split at h
    · simp only [Except.ok.injEq, Prod.mk.injEq] at h
      exact Or.inl ⟨h.1.symm, h.2.symm⟩
    · split at h
      · exact absurd h (by simp)
      · split at h
        · simp only [Except.ok.injEq, Prod.mk.injEq] at h
          obtain ⟨hb, hj⟩ := h
          refine Or.inr ⟨hb.symm, hj.symm, ?_, by assumption⟩
          subst hj
          omega
        · exact absurd h (by simp)
  · exact absurd h (by simp)

/-- Non-blocking `finish` on an owned job whose process is still running:
returns `False` and changes nothing (lines 251-254). -/
theorem finish_running {dur : Nat → Nat} {clock : Nat} {stdin : List String}
    {jobs : List Job} {job : Job}
    (h1 : jobs.any (fun x => x.id == job.id) = true) (h2 : clock < job.endTime) :
    ReencodeJobList.finish dur clock stdin jobs job false = .ok (false, jobs) := by
  simp [ReencodeJobList.finish, h1, h2]

/-- `finish` on an owned, terminated (or blocking-waited) job with exit code
zero: reaps it, removing it from the owned list (lines 256-263, 287). -/
theorem finish_success {dur : Nat → Nat} {clock : Nat} {stdin : List String}
    {jobs : List Job} {job : Job} {w : Bool}
    (h1 : job ∈ jobs) (h2 : w = true ∨ job.endTime ≤ clock)
    (h3 : job.exitOk = true) :
    ReencodeJobList.finish dur clock stdin jobs job w =
      .ok (true, jobs.eraseP (fun x => x.id == job.id)) := by
  have hlen : (jobs.eraseP (fun x => x.id == job.id)).length + 1 = jobs.length :=
    List.length_eraseP_add_one h1 (by simp)
  have hcond : ¬(¬w = true ∧ clock < job.endTime) := by
    rcases h2 with h | h
    · simp [h]
    · intro hc
      omega
  simp only [ReencodeJobList.finish, any_id_of_mem h1, if_pos, if_neg hcond]
  rw [if_neg (by omega), if_pos h3]

/-- `finish` on an owned, terminated (or blocking-waited) job with a nonzero
exit code: the job is removed, then the recovery prompt is reached and raises
`NameError` on `raw_input` (line 269) — no retry, skip, abort or `sys.exit`
ever happens. -/
theorem finish_fail {dur : Nat → Nat} {clock : Nat} {stdin : List String}
    {jobs : List Job} {job : Job} {w : Bool}
    (h1 : job ∈ jobs) (h2 : w = true ∨ job.endTime ≤ clock)
    (h3 : job.exitOk = false) :
    ReencodeJobList.finish dur clock stdin jobs job w =
      .error (.nameError "raw_input") := by
  have hlen : (jobs.eraseP (fun x => x.id == job.id)).length + 1 = jobs.length :=
    List.length_eraseP_add_one h1 (by simp)
  have hcond : ¬(¬w = true ∧ clock < job.endTime) := by
    rcases h2 with h | h
    · simp [h]
    · intro hc
      omega
  simp only [ReencodeJobList.finish, any_id_of_mem h1, if_pos, if_neg hcond,
    promptChoice_raises]
  rw [if_neg (by omega), if_neg (by simp [h3])]

/-- Removing the head occurrence of a sublist from a list with pairwise
distinct ids leaves a list in which the tail of the sublist still embeds:
the alignment fact behind the live-list iterator semantics. -/
theorem sublist_eraseP_of_cons {j : Job} :
    ∀ {jobs rest : List Job}, List.Sublist (j :: rest) jobs →
    (jobs.map Job.id).Nodup →
    List.Sublist rest (jobs.eraseP (fun x => x.id == j.id))
  | [], _, h, _ => by cases h
  | a :: l, rest, h, hnd => by
    cases h with
    | cons _ h2 =>
      have hj : j ∈ l := h2.subset (List.mem_cons_self j rest)
      have hij : (a.id == j.id) = false := by
        have hm : j.id ∈ l.map Job.id := List.mem_map_of_mem Job.id hj
        simp only [List.map_cons, List.nodup_cons] at hnd
        simp only [beq_eq_false_iff_ne, ne_eq]
        intro hEq
        exact hnd.1 (hEq ▸ hm)
      rw [List.eraseP_cons, hij]
      simp only [List.map_cons, List.nodup_cons] at hnd
      exact .cons a (sublist_eraseP_of_cons h2 hnd.2)
    | cons₂ _ h2 =>
      rw [List.eraseP_cons]
      simp only [beq_self_eq_true, cond_true]
      exact h2

/-- Unfolding equation for `pollGo` on an empty visit list. -/
theorem pollGo_nil (dur : Nat → Nat) (clock : Nat) (stdin : List String)
    (jobs : List Job) (found : Bool) :
    ReencodeJobList.pollGo dur clock stdin jobs [] found = .ok (found, jobs) := rfl

/-- Unfolding equation for `pollGo` on a nonempty visit list. -/
theorem pollGo_cons (dur : Nat → Nat) (clock : Nat) (stdin : List String)
    (jobs : List Job) (j : Job) (rest : List Job) (found : Bool) :
    ReencodeJobList.pollGo dur clock stdin jobs (j :: rest) found =
      match ReencodeJobList.finish dur clock stdin jobs j false with
      | .error e => .error e
      | .ok (false, jobs') => ReencodeJobList.pollGo dur clock stdin jobs' rest found
      | .ok (true, jobs') =>
        match rest with
        | [] => .ok (true, jobs')
        | _ :: rest2 => ReencodeJobList.pollGo dur clock stdin jobs' rest2 true := by
  rw [ReencodeJobList.pollGo]

/-- A poll sweep only ever removes jobs: its resulting owned list is a
sublist of the starting one (in particular nothing is added and the order
of survivors is preserved). -/
theorem pollGo_sublist (dur : Nat → Nat) (clock : Nat) (stdin : List String)
    (jobs visit : List Job) (found : Bool) :
    ∀ {b : Bool} {jobs' : List Job},
      ReencodeJobList.pollGo dur clock stdin jobs visit found = .ok (b, jobs') →
      List.Sublist jobs' jobs := by
  induction jobs, visit, found using ReencodeJobList.pollGo.induct dur clock stdin with
  | case1 jobs found =>
    intro b jobs' h
    simp only [pollGo_nil, Except.ok.injEq, Prod.mk.injEq] at h
    exact h.2 ▸ List.Sublist.refl jobs
  | case2 jobs j rest found e he =>
    intro b jobs' h
    simp only [pollGo_cons, he] at h
    exact Except.noConfusion h
  | case3 jobs j rest found jobs1 he ih =>
    intro b jobs' h
    simp only [pollGo_cons, he] at h
    rcases finish_ok_cases he with ⟨_, hj⟩ | ⟨hb, _⟩
    · exact hj ▸ ih h
    · cases hb
  | case4 jobs j found jobs1 he =>
    intro b jobs' h
    simp only [pollGo_cons, he, Except.ok.injEq, Prod.mk.injEq] at h
    rcases finish_ok_cases he with ⟨hb, _⟩ | ⟨_, hj, _, _⟩
    · cases hb
    · exact h.2 ▸ hj ▸ List.eraseP_sublist jobs
  | case5 jobs j found jobs1 he x rest2 ih =>
    intro b jobs' h
    simp only [pollGo_cons, he] at h
    rcases finish_ok_cases he with ⟨hb, _⟩ | ⟨_, hj, _, _⟩
    · cases hb
    · exact (ih h).trans (hj ▸ List.eraseP_sublist jobs)

/-- The boolean a poll sweep accumulates is `true` exactly when the sweep
reaped at least one job, i.e. when the owned list shrank (given the
accumulator it started from). -/
theorem pollGo_found (dur : Nat → Nat) (clock : Nat) (stdin : List String)
    (jobs visit : List Job) (found : Bool) :
    ∀ {b : Bool} {jobs' : List Job},
      ReencodeJobList.pollGo dur clock stdin jobs visit found = .ok (b, jobs') →
      (b = true ↔ (found = true ∨ jobs'.length < jobs.length)) := by
  induction jobs, visit, found using ReencodeJobList.pollGo.induct dur clock stdin with
  | case1 jobs found =>
    intro b jobs' h
    simp only [pollGo_nil, Except.ok.injEq, Prod.mk.injEq] at h
    obtain ⟨hb, hj⟩ := h
    subst hb
    subst hj
    simp
  | case2 jobs j rest found e he =>
    intro b jobs' h
    simp only [pollGo_cons, he] at h
    exact Except.noConfusion h
  | case3 jobs j rest found jobs1 he ih =>
    intro b jobs' h
    simp only [pollGo_cons, he] at h
    rcases finish_ok_cases he with ⟨_, hj⟩ | ⟨hb, _⟩
    · exact hj ▸ ih h
    · cases hb
  | case4 jobs j found jobs1 he =>
    intro b jobs' h
    simp only [pollGo_cons, he, Except.ok.injEq, Prod.mk.injEq] at h
    rcases finish_ok_cases he with ⟨hb, _⟩ | ⟨hb, hj, hlen, _⟩
    · cases hb
    · obtain ⟨hb', hj'⟩ := h
      subst hb'
      subst hj'
      simp [hlen]
  | case5 jobs j found jobs1 he x rest2 ih =>
    intro b jobs' h
    simp only [pollGo_cons, he] at h
    rcases finish_ok_cases he with ⟨hb, _⟩ | ⟨_, hj, hlen, _⟩
    · cases hb
    · have hb := (ih h).mpr (Or.inl rfl)
      have hle : jobs'.length ≤ jobs1.length :=
        (pollGo_sublist dur clock stdin jobs1 rest2 true h).length_le
      subst hb
      simp only [true_iff]
      right
      omega

/-- On a pool of pairwise-distinct ids all of whose jobs have exit code
zero, a poll sweep never raises: it returns normally, and the surviving
pool again has distinct ids and only zero-exit jobs.  The `visit` list is
the iterator's remaining suffix, always embedded in the live pool. -/
theorem pollGo_progress (dur : Nat → Nat) (clock : Nat) (stdin : List String)
    (jobs visit : List Job) (found : Bool) :
    List.Sublist visit jobs → (jobs.map Job.id).Nodup →
    (∀ j ∈ jobs, j.exitOk = true) →
    ∃ b jobs', ReencodeJobList.pollGo dur clock stdin jobs visit found = .ok (b, jobs') ∧
      ((jobs').map Job.id).Nodup ∧ (∀ j ∈ jobs', j.exitOk = true) := by
  induction jobs, visit, found using ReencodeJobList.pollGo.induct dur clock stdin with
  | case1 jobs found =>
    intro _ hnd hok
    exact ⟨found, jobs, pollGo_nil dur clock stdin jobs found, hnd, hok⟩
  | case2 jobs j rest found e he =>
    intro hsub hnd hok
    exfalso
    have hmem : j ∈ jobs := hsub.subset (List.mem_cons_self j rest)
    by_cases hterm : clock < j.endTime
    · rw [finish_running (any_id_of_mem hmem) hterm] at he
      exact Except.noConfusion he
    · rw [finish_success hmem (Or.inr (by omega)) (hok j hmem)] at he
      exact Except.noConfusion he
  | case3 jobs j rest found jobs1 he ih =>
    intro hsub hnd hok
    rcases finish_ok_cases he with ⟨_, hj⟩ | ⟨hb, _⟩
    · subst hj
      obtain ⟨b, jobs', hrec, hnd', hok'⟩ :=
        ih ((List.sublist_cons_self j rest).trans hsub) hnd hok
      exact ⟨b, jobs', by simp only [pollGo_cons, he]; exact hrec, hnd', hok'⟩
    · cases hb
  | case4 jobs j found jobs1 he =>
    intro hsub hnd hok
    rcases finish_ok_cases he with ⟨hb, _⟩ | ⟨_, hj, _, _⟩
    · cases hb
    · have hsub1 : List.Sublist jobs1 jobs := by
        rw [hj]
        exact List.eraseP_sublist jobs
      refine ⟨true, jobs1, by simp only [pollGo_cons, he], ?_, ?_⟩
      · exact hnd.sublist (hsub1.map Job.id)
      · exact fun x hx => hok x (hsub1.subset hx)
  | case5 jobs j found jobs1 he x rest2 ih =>
    intro hsub hnd hok
    rcases finish_ok_cases he with ⟨hb, _⟩ | ⟨_, hj, _, _⟩
    · cases hb
    · have hsub1 : List.Sublist jobs1 jobs := by
        rw [hj]
        exact List.eraseP_sublist jobs
      have hrest : List.Sublist rest2 jobs1 := by
        have h1 : List.Sublist (x :: rest2) (jobs.eraseP (fun y => y.id == j.id)) :=
          sublist_eraseP_of_cons hsub hnd
        rw [hj]
        exact (List.sublist_cons_self x rest2).trans h1
      obtain ⟨b, jobs', hrec, hnd', hok'⟩ :=
        ih hrest (hnd.sublist (hsub1.map Job.id)) (fun y hy => hok y (hsub1.subset hy))
      exact ⟨b, jobs', by simp only [pollGo_cons, he]; exact hrec, hnd', hok'⟩

/-- `ReencodeJobList.poll` on a pool of distinct-id, zero-exit jobs:
it returns normally, only removes jobs, and reports `True` exactly when the
pool shrank. -/
theorem poll_ok_shrink (dur : Nat → Nat) (clock : Nat) (stdin : List String)
    (jobs : List Job)
    (hnd : (jobs.map Job.id).Nodup) (hok : ∀ j ∈ jobs, j.exitOk = true) :
    ∃ b jobs', ReencodeJobList.poll dur clock stdin jobs = .ok (b, jobs') ∧
      List.Sublist jobs' jobs ∧
      ((jobs').map Job.id).Nodup ∧ (∀ j ∈ jobs', j.exitOk = true) ∧
      (b = true ↔ jobs'.length < jobs.length) := by
  obtain ⟨b, jobs', h, hnd', hok'⟩ :=
    pollGo_progress dur clock stdin jobs jobs false (List.Sublist.refl jobs) hnd hok
  refine ⟨b, jobs', h, pollGo_sublist dur clock stdin jobs jobs false h, hnd', hok', ?_⟩
  have := pollGo_found dur clock stdin jobs jobs false h
  simpa using this

/-- Frame and accounting facts of the admission-wait loop, for any state:
it only removes jobs; it never changes `nextId`, the started count, the
submit sizes or the printed lines; reaped-count plus pool size is conserved;
the max-size watermark stays below the larger of its entry value and the
entry pool size; and a normal exit means the pool dropped below the
ceiling. -/
theorem admitLoop_spec (c : Nat) (dur : Nat → Nat) (stdin : List String)
    (fuel : Nat) :
    ∀ (s s' : RState) (r : RunRes),
      admitLoop c dur stdin fuel s = (s', r) →
      List.Sublist s'.pool s.pool ∧
      s'.nextId = s.nextId ∧
      s'.instr.started = s.instr.started ∧
      s'.instr.submitSizes = s.instr.submitSizes ∧
      s'.instr.lines = s.instr.lines ∧
      s'.instr.reaped + s'.pool.length = s.instr.reaped + s.pool.length ∧
      s'.instr.maxSize ≤ max s.instr.maxSize s.pool.length ∧
      (r = .finished → s'.pool.length < c) := by
  induction fuel with
  | zero =>
    intro s s' r h
    simp only [admitLoop, Prod.mk.injEq] at h
    obtain ⟨hs, hr⟩ := h
    subst hs
    refine ⟨List.Sublist.refl _, rfl, rfl, rfl, rfl, rfl, le_max_left _ _, ?_⟩
    intro hfin
    rw [← hr] at hfin
    exact absurd hfin (by simp)
  | succ fuel ih =>
    intro s s' r h
    simp only [admitLoop] at h
    split at h
    · split at h
      · simp only [Prod.mk.injEq] at h
        obtain ⟨hs, hr⟩ := h
        subst hs
        refine ⟨List.Sublist.refl _, rfl, rfl, rfl, rfl, rfl, le_max_left _ _, ?_⟩
        intro hfin
        rw [← hr] at hfin
        exact absurd hfin (by simp)
      · rename_i found pool' heq
        have hsub : List.Sublist pool' s.pool :=
          pollGo_sublist dur s.clock stdin s.pool s.pool false heq
        have hlen : pool'.length ≤ s.pool.length := hsub.length_le
        have key :
            ∀ s1 : RState, s1.pool = pool' →
            s1.nextId = s.nextId →
            s1.instr.started = s.instr.started →
            s1.instr.submitSizes = s.instr.submitSizes →
            s1.instr.lines = s.instr.lines →
            s1.instr.reaped = s.instr.reaped + (s.pool.length - pool'.length) →
            s1.instr.maxSize = max s.instr.maxSize pool'.length →
            admitLoop c dur stdin fuel s1 = (s', r) →
            List.Sublist s'.pool s.pool ∧
            s'.nextId = s.nextId ∧
            s'.instr.started = s.instr.started ∧
            s'.instr.submitSizes = s.instr.submitSizes ∧
            s'.instr.lines = s.instr.lines ∧
            s'.instr.reaped + s'.pool.length = s.instr.reaped + s.pool.length ∧
            s'.instr.maxSize ≤ max s.instr.maxSize s.pool.length ∧
            (r = .finished → s'.pool.length < c) := by
          intro s1 hp hn hst hss hl hrp hm hrec
          obtain ⟨i1, i2, i3, i4, i5, i6, i7, i8⟩ := ih s1 s' r hrec
          refine ⟨(hp ▸ i1).trans hsub, hn ▸ i2, hst ▸ i3, hss ▸ i4, hl ▸ i5, ?_, ?_, i8⟩
          · rw [i6, hrp, hp]
            omega
          · refine i7.trans ?_
            rw [hm, hp]
            exact max_le (max_le (le_max_left _ _)
              (hlen.trans (le_max_right _ _)))
              (hlen.trans (le_max_right _ _))
        split at h
        · refine key _ ?_ ?_ ?_ ?_ ?_ ?_ ?_ h <;> rfl
        · refine key _ ?_ ?_ ?_ ?_ ?_ ?_ ?_ h <;> rfl
    · simp only [Prod.mk.injEq] at h
      obtain ⟨hs, hr⟩ := h
      subst hs
      refine ⟨List.Sublist.refl _, rfl, rfl, rfl, rfl, rfl, le_max_left _ _, ?_⟩
      intro _
      omega

/-- On a pool of distinct-id, zero-exit jobs the admission-wait loop never
raises, and it preserves distinct ids and zero exits. -/
theorem admitLoop_progress (c : Nat) (dur : Nat → Nat) (stdin : List String)
    (fuel : Nat) :
    ∀ (s s' : RState) (r : RunRes),
      (s.pool.map Job.id).Nodup → (∀ j ∈ s.pool, j.exitOk = true) →
      admitLoop c dur stdin fuel s = (s', r) →
      (s'.pool.map Job.id).Nodup ∧ (∀ j ∈ s'.pool, j.exitOk = true) ∧
      ∀ e, r ≠ .crashed e := by
  induction fuel with
  | zero =>
    intro s s' r hnd hok h
    simp only [admitLoop, Prod.mk.injEq] at h
    obtain ⟨hs, hr⟩ := h
    subst hs
    refine ⟨hnd, hok, fun e he => ?_⟩
    rw [← hr] at he
    exact RunRes.noConfusion he
  | succ fuel ih =>
    intro s s' r hnd hok h
    simp only [admitLoop] at h
    split at h
    · split at h
      · rename_i e heq
        exfalso
        obtain ⟨b, jobs', hpoll, _⟩ := poll_ok_shrink dur s.clock stdin s.pool hnd hok
        rw [hpoll] at heq
        exact Except.noConfusion heq
      · rename_i found pool' heq
        obtain ⟨b, jobs', hpoll, hsub, hnd', hok', _⟩ :=
          poll_ok_shrink dur s.clock stdin s.pool hnd hok
        rw [hpoll] at heq
        simp only [Except.ok.injEq, Prod.mk.injEq] at heq
        obtain ⟨hb, hj⟩ := heq
        subst hj
        split at h
        · exact ih _ s' r hnd' hok' h
        · exact ih _ s' r hnd' hok' h
    · simp only [Prod.mk.injEq] at h
      obtain ⟨hs, hr⟩ := h
      subst hs
      refine ⟨hnd, hok, fun e he => ?_⟩
      rw [← hr] at he
      exact RunRes.noConfusion he

/-- Counting facts of the driver loop, for any state and outcome: some
prefix of `k ≤ n` files is submitted, each submission prints exactly one
progress line (in order, with 1-based indices continuing the started
count), each submission adds one to the conserved sum
`reaped + pool size`, and a normal finish means all `n` files were
submitted. -/
theorem runFiles_count (c : Nat) (dur : Nat → Nat) (okf : Nat → Bool)
    (rel : String → String) (total : Nat) (stdin : List String) (fuel : Nat) :
    ∀ (files : List String) (s s' : RState) (r : RunRes),
      runFiles c dur okf rel total stdin fuel files s = (s', r) →
      ∃ k, k ≤ files.length ∧
        s'.instr.started = s.instr.started + k ∧
        s'.nextId = s.nextId + k ∧
        s'.instr.lines =
          s.instr.lines ++ expectedLines total rel s.instr.started (files.take k) ∧
        s'.instr.reaped + s'.pool.length = s.instr.reaped + s.pool.length + k ∧
        (r = .finished → k = files.length) := by
  intro files
  induction files with
  | nil =>
    intro s s' r h
    simp only [runFiles, Prod.mk.injEq] at h
    obtain ⟨hs, hr⟩ := h
    subst hs
    exact ⟨0, by omega, by simp, by simp, by simp [expectedLines], by simp, by simp⟩
  | cons f rest ih =>
    intro s s' r h
    simp only [runFiles] at h
    split at h
    · rename_i s2 heq
      obtain ⟨a1, a2, a3, a4, a5, a6, a7, a8⟩ :=
        admitLoop_spec c dur stdin fuel _ s2 .finished heq
      obtain ⟨k, hk, b1, b2, b3, b4, b5⟩ := ih s2 s' r h
      replace a2 : s2.nextId = s.nextId + 1 := a2
      replace a3 : s2.instr.started = s.instr.started + 1 := a3
      replace a5 : s2.instr.lines =
          s.instr.lines ++ [progressLine (s.instr.started + 1) total (rel f)] := a5
      simp only [ReencodeJobList.start, List.length_append, List.length_cons,
        List.length_nil] at a6
      refine ⟨k + 1, by simp only [List.length_cons]; omega, ?_, ?_, ?_, ?_, ?_⟩
      · rw [b1, a3]
        omega
      · rw [b2, a2]
        omega
      · rw [b3, a5, a3, List.take_succ_cons]
        simp [expectedLines]
      · rw [b4, a6]
        omega
      · intro hfin
        simp [b5 hfin]
    · rename_i s2 r0 hne heq
      obtain ⟨a1, a2, a3, a4, a5, a6, a7, a8⟩ :=
        admitLoop_spec c dur stdin fuel _ s2 r0 heq
      simp only [ReencodeJobList.start, List.length_append, List.length_cons,
        List.length_nil] at a6
      simp only [Prod.mk.injEq] at h
      obtain ⟨hs, hr⟩ := h
      subst hs
      refine ⟨1, by simp only [List.length_cons]; omega, a3, a2, ?_, ?_, ?_⟩
      · rw [a5]
        simp [expectedLines]
      · omega
      · intro hfin
        rw [← hr] at hfin
        exact absurd hfin hne

/-- Ceiling facts of the driver loop: if the ceiling is positive, the pool
is below the ceiling on entry, the watermark and all recorded submit sizes
are within bounds, then throughout the run the watermark never exceeds the
ceiling, every submission happens at a pool size strictly below the
ceiling, and a normal finish leaves the pool strictly below the ceiling. -/
theorem runFiles_sizes (c : Nat) (dur : Nat → Nat) (okf : Nat → Bool)
    (rel : String → String) (total : Nat) (stdin : List String) (fuel : Nat) :
    ∀ (files : List String) (s s' : RState) (r : RunRes),
      1 ≤ c → s.pool.length < c → s.instr.maxSize ≤ c →
      (∀ x ∈ s.instr.submitSizes, x < c) →
      runFiles c dur okf rel total stdin fuel files s = (s', r) →
      s'.instr.maxSize ≤ c ∧ (∀ x ∈ s'.instr.submitSizes, x < c) ∧
      (r = .finished → s'.pool.length < c) := by
  intro files
  induction files with
  | nil =>
    intro s s' r hc hlt hmax hsub h
    simp only [runFiles, Prod.mk.injEq] at h
    obtain ⟨hs, hr⟩ := h
    subst hs
    refine ⟨hmax, hsub, ?_⟩
    intro _
    simpa using hlt
  | cons f rest ih =>
    intro s s' r hc hlt hmax hsub h
    simp only [runFiles] at h
    have hlen1 : (ReencodeJobList.start dur okf s.clock s.nextId f s.pool).length =
        s.pool.length + 1 := by
      simp [ReencodeJobList.start]
    have hmax1 : max s.instr.maxSize
        (ReencodeJobList.start dur okf s.clock s.nextId f s.pool).length ≤ c := by
      rw [hlen1]
      exact max_le hmax (by omega)
    have hsub1 : ∀ x ∈ s.instr.submitSizes ++ [s.pool.length], x < c := by
      intro x hx
      rcases List.mem_append.mp hx with hx | hx
      · exact hsub x hx
      · rw [List.mem_singleton.mp hx]
        exact hlt
    split at h
    · rename_i s2 heq
      obtain ⟨a1, a2, a3, a4, a5, a6, a7, a8⟩ :=
        admitLoop_spec c dur stdin fuel _ s2 .finished heq
      replace a4 : s2.instr.submitSizes = s.instr.submitSizes ++ [s.pool.length] := a4
      have hmax2 : s2.instr.maxSize ≤ c := by
        refine a7.trans ?_
        refine max_le ?_ ?_
        · exact hmax1
        · rw [hlen1]
          omega
      exact ih s2 s' r hc (a8 rfl) hmax2 (a4 ▸ hsub1) h
    · rename_i s2 r0 hne heq
      obtain ⟨a1, a2, a3, a4, a5, a6, a7, a8⟩ :=
        admitLoop_spec c dur stdin fuel _ s2 r0 heq
      replace a4 : s2.instr.submitSizes = s.instr.submitSizes ++ [s.pool.length] := a4
      simp only [Prod.mk.injEq] at h
      obtain ⟨hs, hr⟩ := h
      subst hs
      have hmax2 : s2.instr.maxSize ≤ c := by
        refine a7.trans ?_
        refine max_le ?_ ?_
        · exact hmax1
        · rw [hlen1]
          omega
      refine ⟨hmax2, a4 ▸ hsub1, ?_⟩
      intro hfin
      rw [← hr] at hfin
      exact absurd hfin hne

/-- On an all-successful batch (every process exits zero) starting from a
well-formed pool, the driver never crashes, and if it finishes normally
every job still owned at the end has been blocking-waited by the final
drain. -/
theorem runFiles_allok (c : Nat) (dur : Nat → Nat) (okf : Nat → Bool)
    (rel : String → String) (total : Nat) (stdin : List String) (fuel : Nat) :
    ∀ (files : List String) (s s' : RState) (r : RunRes),
      (∀ i, okf i = true) →
      (s.pool.map Job.id).Nodup → (∀ j ∈ s.pool, j.exitOk = true) →
      (∀ j ∈ s.pool, j.id < s.nextId) →
      runFiles c dur okf rel total stdin fuel files s = (s', r) →
      (∀ e, r ≠ .crashed e) ∧
      (r = .finished → ∀ j ∈ s'.pool, j.waited = true) := by
  intro files
  induction files with
  | nil =>
    intro s s' r hokf hnd hok hid h
    simp only [runFiles, Prod.mk.injEq] at h
    obtain ⟨hs, hr⟩ := h
    subst hs
    refine ⟨fun e he => by rw [← hr] at he; exact RunRes.noConfusion he, ?_⟩
    intro _ j hj
    simp only [List.mem_map] at hj
    obtain ⟨x, _, hx⟩ := hj
    rw [← hx]
  | cons f rest ih =>
    intro s s' r hokf hnd hok hid h
    simp only [runFiles] at h
    have hnd1 : ((ReencodeJobList.start dur okf s.clock s.nextId f s.pool).map Job.id).Nodup := by
      simp only [ReencodeJobList.start, List.map_append, List.map_cons, List.map_nil]
      rw [List.nodup_append]
      refine ⟨hnd, List.nodup_singleton _, ?_⟩
      intro a ha hb
      simp only [List.mem_singleton] at hb
      replace hb : a = s.nextId := hb
      simp only [List.mem_map] at ha
      obtain ⟨x, hx, hxa⟩ := ha
      have := hid x hx
      omega
    have hok1 : ∀ j ∈ ReencodeJobList.start dur okf s.clock s.nextId f s.pool,
        j.exitOk = true := by
      intro j hj
      simp only [ReencodeJobList.start, List.mem_append, List.mem_singleton] at hj
      rcases hj with hj | hj
      · exact hok j hj
      · rw [hj]
        exact hokf s.nextId
    have hid1 : ∀ j ∈ ReencodeJobList.start dur okf s.clock s.nextId f s.pool,
        j.id < s.nextId + 1 := by
      intro j hj
      simp only [ReencodeJobList.start, List.mem_append, List.mem_singleton] at hj
      rcases hj with hj | hj
      · exact (hid j hj).trans (by omega)
      · rw [hj]
        exact Nat.lt_succ_self s.nextId
    split at h
    · rename_i s2 heq
      obtain ⟨c1, c2, c3⟩ := admitLoop_progress c dur stdin fuel _ s2 .finished hnd1 hok1 heq
      obtain ⟨a1, a2, a3, a4, a5, a6, a7, a8⟩ :=
        admitLoop_spec c dur stdin fuel _ s2 .finished heq
      replace a2 : s2.nextId = s.nextId + 1 := a2
      have hid2 : ∀ j ∈ s2.pool, j.id < s2.nextId := by
        intro j hj
        rw [a2]
        exact hid1 j (a1.subset hj)
      exact ih s2 s' r hokf c1 c2 hid2 h
    · rename_i s2 r0 hne heq
      obtain ⟨c1, c2, c3⟩ := admitLoop_progress c dur stdin fuel _ s2 r0 hnd1 hok1 heq
      simp only [Prod.mk.injEq] at h
      obtain ⟨hs, hr⟩ := h
      subst hs
      refine ⟨fun e he => by rw [← hr] at he; exact c3 e he, ?_⟩
      intro hfin
      rw [← hr] at hfin
      exact absurd hfin hne

/-- `_remove_tmp` never raises and its whole effect is to delete the one
path `file + tmpSuffix` (deleting nothing when it is absent). -/
theorem remove_tmp_ok (file : String) (fs : List String) :
    ReencodeJob.remove_tmp file fs = .ok (fs.erase (file ++ tmpSuffix)) := by
  unfold ReencodeJob.remove_tmp osRemove osPathExists
  by_cases hmem : (file ++ tmpSuffix) ∈ fs
  · simp [hmem]
  · simp [hmem, List.erase_of_not_mem hmem]

/-- `ReencodeJobList.wait` never raises; it marks every owned job waited,
keeps the owned list's members (ids, files, order) and size unchanged, and
erases each job's temporary file from the filesystem in order. -/
theorem waitGo_spec (jobs : List Job) :
    ∀ fs : List String,
      ∃ jobs' fs', ReencodeJobList.waitGo jobs fs = .ok (jobs', fs') ∧
        jobs'.map Job.id = jobs.map Job.id ∧
        jobs'.map Job.file = jobs.map Job.file ∧
        jobs'.length = jobs.length ∧
        (∀ j ∈ jobs', j.waited = true) ∧
        fs' = jobs.foldl (fun acc j => acc.erase (j.file ++ tmpSuffix)) fs := by
  induction jobs with
  | nil =>
    intro fs
    exact ⟨[], fs, rfl, rfl, rfl, rfl, by simp, rfl⟩
  | cons j rest ih =>
    intro fs
    obtain ⟨jobs', fs', hrec, h1, h2, h3, h4, h5⟩ :=
      ih (fs.erase (j.file ++ tmpSuffix))
    refine ⟨{ j with waited := true } :: jobs', fs', ?_, ?_, ?_, ?_, ?_, ?_⟩
    · simp only [ReencodeJobList.waitGo, remove_tmp_ok, hrec]
    · simp [h1]
    · simp [h2]
    · simp [h3]
    · intro x hx
      rcases List.mem_cons.mp hx with hx | hx
      · rw [hx]
      · exact h4 x hx
    · simpa using h5

/-- `expectedLines` produces exactly one line per file. -/
theorem expectedLines_length (total : Nat) (rel : String → String) :
    ∀ (base : Nat) (fs : List String),
      (expectedLines total rel base fs).length = fs.length := by
  intro base fs
  induction fs generalizing base with
  | nil => rfl
  | cons f rest ih => simp [expectedLines, ih]

/-! ## Claims -/

/-- C1, counterexample.  The claim says one `poll` call runs non-blocking
`finish` on every job owned at the start of the sweep.  False: with two
terminated successful jobs owned, `finish` on the first reaps it, the
CPython list iterator's index then skips the job that slid into slot 0, and
the sweep ends with a terminated successful job still owned — whereas the
spec-side sweep (`pollAllSpec`, finish on every job owned at the start)
reaps both.  The sweep also returns `True` here, so the claimed return
value says "at least one reaped" while a reapable job was silently
skipped. -/
theorem c1_poll_counterexample :
    ReencodeJobList.poll durZero 5 [] [jobA, jobB] = .ok (true, [jobB]) ∧
    ReencodeJobList.pollAllSpec durZero 5 [] [jobA, jobB] = .ok (true, []) ∧
    ReencodeJobList.poll durZero 5 [] [jobA, jobB] ≠
      ReencodeJobList.pollAllSpec durZero 5 [] [jobA, jobB] ∧
    jobB.endTime ≤ 5 ∧ jobB.exitOk = true :=
  ⟨rfl, rfl, by decide, by decide, rfl⟩

/-- C1, amended.  A `poll` sweep calls non-blocking `finish` on the first
owned job and then on the job at each successive live-list index, so the
job immediately after a reaped one is skipped in that sweep; on a pool of
distinct-id jobs whose processes all exit zero the sweep returns normally,
only removes jobs, and returns `True` iff at least one job was reaped
(the owned list shrank) during the sweep. -/
theorem c1_poll_amended (dur : Nat → Nat) (clock : Nat) (stdin : List String)
    (jobs : List Job) (hnd : (jobs.map Job.id).Nodup)
    (hok : ∀ j ∈ jobs, j.exitOk = true) :
    ∃ b jobs', ReencodeJobList.poll dur clock stdin jobs = .ok (b, jobs') ∧
      List.Sublist jobs' jobs ∧
      (b = true ↔ jobs'.length < jobs.length) := by
  obtain ⟨b, jobs', h, hsub, _, _, hiff⟩ := poll_ok_shrink dur clock stdin jobs hnd hok
  exact ⟨b, jobs', h, hsub, hiff⟩

/-- Witness for `c1_poll_amended` at the two-job pool of the
counterexample. -/
theorem c1_poll_amended_witness :
    (([jobA, jobB].map Job.id).Nodup ∧ ∀ j ∈ [jobA, jobB], j.exitOk = true) ∧
    ∃ b jobs', ReencodeJobList.poll durZero 5 [] [jobA, jobB] = .ok (b, jobs') ∧
      List.Sublist jobs' [jobA, jobB] ∧
      (b = true ↔ jobs'.length < [jobA, jobB].length) :=
  ⟨⟨by decide, by decide⟩,
   c1_poll_amended durZero 5 [] [jobA, jobB] (by decide) (by decide)⟩

/-- C2, confirmed.  For every ceiling `c ≥ 1` and every batch run (any
oracles, any fuel, any outcome — including crashes on failing jobs), the
owned-pool size never exceeds `c` at any point (the watermark `maxSize`
tracks the size after every pool change), and every submission happens
only when the size has dropped strictly below `c`. -/
theorem c2_ceiling_invariant (c : Nat) (dur : Nat → Nat) (okf : Nat → Bool)
    (rel : String → String) (stdin : List String) (fuel : Nat)
    (files : List String) (s' : RState) (r : RunRes) (hc : 1 ≤ c)
    (h : reencode_files c dur okf rel stdin fuel files = (s', r)) :
    s'.instr.maxSize ≤ c ∧ ∀ x ∈ s'.instr.submitSizes, x < c := by
  obtain ⟨h1, h2, _⟩ :=
    runFiles_sizes c dur okf rel files.length stdin fuel files initRState s' r hc
      (by simpa [initRState] using hc) (by simp [initRState])
      (by intro x hx; simp [initRState] at hx) h
  exact ⟨h1, h2⟩

/-- Witness for `c2_ceiling_invariant`: a three-file batch at ceiling 2. -/
theorem c2_ceiling_invariant_witness :
    (1 : Nat) ≤ 2 ∧
    ((reencode_files 2 durZero okAll relId [] 10
        ["a.flac", "b.flac", "c.flac"]).1.instr.maxSize ≤ 2 ∧
      ∀ x ∈ (reencode_files 2 durZero okAll relId [] 10
        ["a.flac", "b.flac", "c.flac"]).1.instr.submitSizes, x < 2) :=
  ⟨by decide,
   c2_ceiling_invariant 2 durZero okAll relId [] 10 ["a.flac", "b.flac", "c.flac"]
     _ _ (by decide) rfl⟩

/-- C3, counterexample.  The claim says a failure-free batch ends with all
`n` jobs reaching `Succeeded` and the owned collection empty.  False: with
ceiling 2 and a single instantly-successful file, the admission check
`while len(jobs) >= n_parallel` never fires, the final `jobs.wait()`
removes nothing from the owned list and never classifies the job, so the
run finishes with the job still owned (`pool ≠ []`) and zero jobs reaped
(`reaped = 0 ≠ 1`). -/
theorem c3_batch_counterexample :
    reencode_files 2 durZero okAll relId [] 5 ["a.flac"] =
      ({ pool := [{ id := 0, file := "a.flac", endTime := 0, exitOk := true,
                    waited := true }],
         clock := 0, nextId := 1,
         instr := { started := 1, reaped := 0, maxSize := 1, submitSizes := [0],
                    sweeps := 0,
                    lines := ["1/1 (100%): Re-encoding \x27a.flac\x27..."] } },
       RunRes.finished) ∧
    (reencode_files 2 durZero okAll relId [] 5 ["a.flac"]).1.pool ≠ [] ∧
    (reencode_files 2 durZero okAll relId [] 5 ["a.flac"]).1.instr.reaped ≠ 1 :=
  ⟨rfl, by decide, by decide⟩

/-- C3, amended.  For every ceiling `c ≥ 1` and failure-free batch of `n`
files that finishes normally: exactly `n` jobs are started; the jobs reaped
by polling sweeps (each classified `Succeeded` by `finish`) plus the jobs
still owned at the end account for all `n`; every job still owned at batch
end has been blocking-waited by the final drain, but the drain removes
nothing, so the owned collection is empty only when every job was reaped
(its size merely remains below `c`). -/
theorem c3_batch_amended (c : Nat) (dur : Nat → Nat) (okf : Nat → Bool)
    (rel : String → String) (stdin : List String) (fuel : Nat)
    (files : List String) (s' : RState) (r : RunRes)
    (hc : 1 ≤ c) (hokf : ∀ i, okf i = true)
    (h : reencode_files c dur okf rel stdin fuel files = (s', r))
    (hfin : r = .finished) :
    s'.instr.started = files.length ∧
    s'.instr.reaped + s'.pool.length = files.length ∧
    (∀ j ∈ s'.pool, j.waited = true) ∧
    s'.pool.length < c := by
  obtain ⟨k, hk, b1, b2, b3, b4, b5⟩ :=
    runFiles_count c dur okf rel files.length stdin fuel files initRState s' r h
  obtain ⟨_, hw⟩ :=
    runFiles_allok c dur okf rel files.length stdin fuel files initRState s' r hokf
      (by simp [initRState]) (by simp [initRState]) (by simp [initRState]) h
  obtain ⟨_, _, hlt⟩ :=
    runFiles_sizes c dur okf rel files.length stdin fuel files initRState s' r hc
      (by simpa [initRState] using hc) (by simp [initRState])
      (by intro x hx; simp [initRState] at hx) h
  rw [b5 hfin] at b1 b4
  refine ⟨?_, ?_, hw hfin, hlt hfin⟩
  · simpa [initRState] using b1
  · simpa [initRState] using b4

/-- Witness for `c3_batch_amended`: two files at ceiling 1 (where every
job is reaped and the pool ends empty). -/
theorem c3_batch_amended_witness :
    (reencode_files 1 durZero okAll relId [] 10 ["a.flac", "b.flac"]).1.instr.started = 2 ∧
    (reencode_files 1 durZero okAll relId [] 10 ["a.flac", "b.flac"]).1.instr.reaped +
      (reencode_files 1 durZero okAll relId [] 10 ["a.flac", "b.flac"]).1.pool.length = 2 ∧
    (∀ j ∈ (reencode_files 1 durZero okAll relId [] 10 ["a.flac", "b.flac"]).1.pool,
      j.waited = true) ∧
    (reencode_files 1 durZero okAll relId [] 10 ["a.flac", "b.flac"]).1.pool.length < 1 :=
  c3_batch_amended 1 durZero okAll relId [] 10 ["a.flac", "b.flac"] _ _
    (by decide) (fun _ => rfl) rfl rfl

/-- C4, code bug.  The claim describes the retry path of the recovery
policy, but that path is unreachable: on any failed job — here the operator
input stream holds the `"r"` that would select retry — `finish` raises
`NameError` at the `raw_input` call (a Python 2 name, unbound in this
Python 3 script) before the prompt runs, so no retry, and no second
removal, ever happens.  The prompt loop itself (`promptLoop`, the code
after the unresolvable call) would indeed answer retry. -/
theorem c4_retry_unreachable :
    ReencodeJobList.finish durZero 5 ["r"] [jobBad] jobBad false =
      .error (.nameError "raw_input") ∧
    promptLoop ["r"] = .ok Choice.retry ∧
    resolvesName "raw_input" = false :=
  ⟨rfl, rfl, rfl⟩

/-- C5, code bug.  Choosing abort is impossible: on a failed job `finish`
raises `NameError` at `raw_input` before any choice can be made (first
conjunct).  Even granting the prompt (which would answer abort on `"a"`,
third conjunct), the abort branch runs `self.wait()` and then
`logger.critical("Exiting.")`, and `logger` is unbound, so the branch
raises `NameError` instead of reaching `sys.exit(-6)`: `abortErr` is the
`NameError`, not the distinguished exit status (second conjunct). -/
theorem c5_abort_unreachable :
    ReencodeJobList.finish durZero 5 ["a"] [jobBad] jobBad false =
      .error (.nameError "raw_input") ∧
    ReencodeJobList.abortErr = .nameError "logger" ∧
    promptLoop ["a"] = .ok Choice.abort ∧
    ReencodeJobList.abortErr ≠ .systemExit (-6) :=
  ⟨rfl, rfl, rfl, by decide⟩

/-- C6, code bug.  The prompt loop's validation (line 270) accepts exactly
the single characters `r`/`s`/`a` after lowering and re-prompts otherwise
— the later conjuncts show the loop rejecting `"x"`, `"rr"` and `""` and
accepting upper-case answers — but the prompt is never reached: the loop
body's `raw_input` call raises `NameError` on the first iteration, here on
a failed job with operator input `"x"` then `"r"` queued. -/
theorem c6_prompt_name_error :
    ReencodeJobList.finish durZero 5 ["x", "r"] [jobBad] jobBad false =
      .error (.nameError "raw_input") ∧
    promptChoice ["x", "r"] = .error (.nameError "raw_input") ∧
    promptLoop ["x", "r"] = .ok Choice.retry ∧
    promptLoop ["R"] = .ok Choice.retry ∧
    promptLoop ["rr", "S"] = .ok Choice.skip ∧
    promptLoop ["", "A"] = .ok Choice.abort ∧
    promptAccepts "r" = true ∧ promptAccepts "s" = true ∧
    promptAccepts "a" = true ∧ promptAccepts "x" = false ∧
    promptAccepts "rr" = false ∧ promptAccepts "" = false := by
  refine ⟨rfl, rfl, rfl, rfl, rfl, rfl, ?_, ?_, ?_, ?_, ?_, ?_⟩ <;> decide

/-- C7, counterexample.  The claim says that at ceiling 1 the driver skips
the polling-sweep pattern and blocks with `finish(job, wait=true)`.  False:
`reencode_files` has no ceiling-1 special case — the same
`while len(jobs) >= n_parallel: if not jobs.poll(): time.sleep(1)` loop
runs, and this two-file ceiling-1 batch performs two polling sweeps
(`sweeps = 2 ≠ 0`); no step of the driver calls `finish` with
`wait=true`. -/
theorem c7_ceiling_one_counterexample :
    (reencode_files 1 durZero okAll relId [] 10 ["a.flac", "b.flac"]).1.instr.sweeps = 2 ∧
    (reencode_files 1 durZero okAll relId [] 10 ["a.flac", "b.flac"]).1.instr.sweeps ≠ 0 :=
  ⟨rfl, by decide⟩

/-- C7, amended.  At ceiling 1 the driver uses the same polling-sweep
admission loop as any other ceiling; the sweeps make execution strictly
sequential: every submission happens with an empty pool, and a normally
finished run ends with the pool empty (the last job, too, is reaped by a
sweep rather than by a blocking `finish`). -/
theorem c7_ceiling_one_amended (dur : Nat → Nat) (okf : Nat → Bool)
    (rel : String → String) (stdin : List String) (fuel : Nat)
    (files : List String) (s' : RState) (r : RunRes)
    (h : reencode_files 1 dur okf rel stdin fuel files = (s', r)) :
    (∀ x ∈ s'.instr.submitSizes, x = 0) ∧
    (r = .finished → s'.pool = []) := by
  obtain ⟨_, h2, h3⟩ :=
    runFiles_sizes 1 dur okf rel files.length stdin fuel files initRState s' r
      (le_refl 1) (by simp [initRState]) (by simp [initRState])
      (by intro x hx; simp [initRState] at hx) h
  refine ⟨fun x hx => by have := h2 x hx; omega, fun hfin => ?_⟩
  have := h3 hfin
  exact List.length_eq_zero.mp (by omega)

/-- Witness for `c7_ceiling_one_amended` on the counterexample's run. -/
theorem c7_ceiling_one_amended_witness :
    (∀ x ∈ (reencode_files 1 durZero okAll relId [] 10
        ["a.flac", "b.flac"]).1.instr.submitSizes, x = 0) ∧
    ((reencode_files 1 durZero okAll relId [] 10 ["a.flac", "b.flac"]).2 =
        .finished →
      (reencode_files 1 durZero okAll relId [] 10 ["a.flac", "b.flac"]).1.pool = []) :=
  c7_ceiling_one_amended durZero okAll relId [] 10 ["a.flac", "b.flac"] _ _ rfl

/-- C8, counterexample.  The claim zero-pads the index to the width of the
total; the code pads with spaces (`str(i).rjust(total_len, ' ')`, line 339)
and appends a trailing `"..."`: for file 1 of 10 the printed line is
`" 1/10 (10%): Re-encoding 'a.flac'..."`, not the claimed
`"01/10 (10%): Re-encoding 'a.flac'"`. -/
theorem c8_progress_counterexample :
    progressLine 1 10 "a.flac" = " 1/10 (10%): Re-encoding \x27a.flac\x27..." ∧
    claimedProgressLine 1 10 "a.flac" = "01/10 (10%): Re-encoding \x27a.flac\x27" ∧
    progressLine 1 10 "a.flac" ≠ claimedProgressLine 1 10 "a.flac" :=
  ⟨rfl, rfl, by decide⟩

/-- C8, amended.  Every run prints exactly one progress line per submitted
file, in submission order: the `i`-th line (1-based) is
`progressLine i total (rel file_i)` — index space-padded to the width of
the total, truncated percentage, and a trailing `"..."` after the quoted
relative path. -/
theorem c8_progress_lines (c : Nat) (dur : Nat → Nat) (okf : Nat → Bool)
    (rel : String → String) (stdin : List String) (fuel : Nat)
    (files : List String) (s' : RState) (r : RunRes)
    (h : reencode_files c dur okf rel stdin fuel files = (s', r)) :
    s'.instr.lines =
      expectedLines files.length rel 0 (files.take s'.instr.started) ∧
    s'.instr.lines.length = s'.instr.started := by
  obtain ⟨k, hk, b1, b2, b3, b4, b5⟩ :=
    runFiles_count c dur okf rel files.length stdin fuel files initRState s' r h
  have hs : s'.instr.started = k := by simpa [initRState] using b1
  have hlines : s'.instr.lines = expectedLines files.length rel 0 (files.take k) := by
    simpa [initRState] using b3
  refine ⟨by rw [hs, hlines], ?_⟩
  rw [hs, hlines, expectedLines_length]
  rw [List.length_take]
  omega

/-- Witness for `c8_progress_lines` on a concrete two-file run. -/
theorem c8_progress_lines_witness :
    (reencode_files 2 durZero okAll relId [] 5 ["a.flac", "b.flac"]).1.instr.lines =
      expectedLines 2 relId 0
        (["a.flac", "b.flac"].take
          (reencode_files 2 durZero okAll relId [] 5
            ["a.flac", "b.flac"]).1.instr.started) ∧
    (reencode_files 2 durZero okAll relId [] 5 ["a.flac", "b.flac"]).1.instr.lines.length =
      (reencode_files 2 durZero okAll relId [] 5 ["a.flac", "b.flac"]).1.instr.started :=
  c8_progress_lines 2 durZero okAll relId [] 5 ["a.flac", "b.flac"] _ _ rfl

/-- C9, confirmed.  On a duplicate-free filesystem, `_remove_tmp` never
raises, running it twice gives the same filesystem as running it once (the
second run finds nothing to delete and deletes nothing), and the only path
it ever deletes is the job's input path with the encoder's fixed temporary
suffix appended — every other path's presence is untouched. -/
theorem c9_cleanup_idempotent (file : String) (fs : List String)
    (hnd : fs.Nodup) :
    ∃ fs1, ReencodeJob.remove_tmp file fs = .ok fs1 ∧
      ReencodeJob.remove_tmp file fs1 = .ok fs1 ∧
      (∀ p, p ≠ file ++ tmpSuffix → (p ∈ fs1 ↔ p ∈ fs)) ∧
      file ++ tmpSuffix ∉ fs1 := by
  refine ⟨fs.erase (file ++ tmpSuffix), remove_tmp_ok file fs, ?_, ?_, ?_⟩
  · rw [remove_tmp_ok, List.erase_of_not_mem (hnd.not_mem_erase)]
  · intro p hp
    exact List.mem_erase_of_ne hp
  · exact hnd.not_mem_erase

/-- Witness for `c9_cleanup_idempotent` on a three-file filesystem holding
the input, its temporary sibling, and an unrelated file. -/
theorem c9_cleanup_idempotent_witness :
    (["x.flac", "x.flac" ++ tmpSuffix, "y.flac"] : List String).Nodup ∧
    ∃ fs1, ReencodeJob.remove_tmp "x.flac" ["x.flac", "x.flac" ++ tmpSuffix, "y.flac"] = .ok fs1 ∧
      ReencodeJob.remove_tmp "x.flac" fs1 = .ok fs1 ∧
      (∀ p, p ≠ "x.flac" ++ tmpSuffix → (p ∈ fs1 ↔ p ∈ (["x.flac", "x.flac" ++ tmpSuffix, "y.flac"] : List String))) ∧
      "x.flac" ++ tmpSuffix ∉ fs1 :=
  ⟨by decide,
   c9_cleanup_idempotent "x.flac" ["x.flac", "x.flac" ++ tmpSuffix, "y.flac"] (by decide)⟩

/-- C10, confirmed.  Draining the pool (`ReencodeJobList.wait`) never
raises; it blocking-waits every owned job and removes each one's temporary
file, but it removes no job from the owned collection: the list of owned
ids, the list of owned files, and the size are all unchanged. -/
theorem c10_wait_frame (jobs : List Job) (fs : List String) :
    ∃ jobs' fs', ReencodeJobList.wait jobs fs = .ok (jobs', fs') ∧
      jobs'.map Job.id = jobs.map Job.id ∧
      jobs'.map Job.file = jobs.map Job.file ∧
      jobs'.length = jobs.length ∧
      (∀ j ∈ jobs', j.waited = true) ∧
      fs' = jobs.foldl (fun acc j => acc.erase (j.file ++ tmpSuffix)) fs :=
  waitGo_spec jobs fs
